import Mathlib

/-!
# volesti `examples/sample_points/simple_example.cpp`

A shallow embedding of the example program: the `CustomFunctor` oracle pair
handed to the log-concave distribution, the function
`sample_points_eigen_matrix`, and the two library entry points it calls
(`sample_points` and `effective_sample_size`).

Conventions.

* The definitions are polymorphic in the number type.  They are read in two
  ways: over `Double`, a model of the IEEE 754 binary64 type `double` with
  round-to-nearest-even, gradual underflow, overflow to infinity and NaN; and
  over an exact field (`ℚ`, `ℝ`), which gives the real functions the code
  denotes.  Derivatives are taken of the latter.  In `Double` every operation
  is rounded on its own.
* The diagnostics, which are modelled from the spec, are stated over `ℚ`.
* `unsigned int` is a natural number below `2 ^ 32`, with wrap-around
  arithmetic written out.
* `std::vector::operator[]` is a partial read: an out-of-bounds index
  yields `none`.
-/

namespace Volesti

/-! ## The type `double` -/

/-- Number of binary digits of `n`, computed with `fuel` halvings at most. -/
def bitLengthAux : Nat → Nat → Nat
  | 0, _ => 0
  | fuel + 1, n => if n = 0 then 0 else bitLengthAux fuel (n / 2) + 1

/-- Number of binary digits of `n`. -/
def bitLength (n : Nat) : Nat := bitLengthAux n n

/-- A value of the IEEE 754 binary64 type `double`: the finite number
`m * 2 ^ e`, an infinity, or NaN.  Zero carries no sign and there is one NaN;
nothing in the example tells `-0.0` from `0.0` or one NaN from another. -/
inductive Double
  | finite (m : Int) (e : Int)
  | inf (negative : Bool)
  | nan
  deriving DecidableEq, Repr

namespace Double

/-- Exponent of the least positive `double`, `2 ^ (-1074)`. -/
def MIN_EXP : Int := -1074

/-- Exponent of the last digit of the greatest finite `double`,
`(2 ^ 53 - 1) * 2 ^ 971`. -/
def MAX_EXP : Int := 971

/-- The representation `m * 2 ^ e` a finite `double` has: at most 53 digits and
`-1074 ≤ e ≤ 971`, with exactly 53 digits unless `e = -1074` (zero and the
subnormal numbers). -/
def canonical : Double → Bool
  | finite m e =>
    decide (m.natAbs < 2 ^ 53) && decide (MIN_EXP ≤ e) && decide (e ≤ MAX_EXP)
      && (decide (2 ^ 52 ≤ m.natAbs) || decide (e = MIN_EXP))
  | inf _ => true
  | nan => true

/-- Neither an infinity nor NaN. -/
def isFinite : Double → Bool
  | finite _ _ => true
  | inf _ => false
  | nan => false

/-- Negation, which is exact. -/
def neg : Double → Double
  | finite m e => finite (-m) e
  | inf negative => inf (!negative)
  | nan => nan

/-- The `double` nearest to `n * 2 ^ E`, ties going to the even last digit;
numbers of magnitude `2 ^ 1024` and more after rounding become infinite. -/
def roundNat (n : Nat) (E : Int) : Double :=
  if n = 0 then finite 0 MIN_EXP
  else
    let e : Int := max (E + (bitLength n : Nat) - 53) MIN_EXP
    if e ≤ E then
      if MAX_EXP < e then inf false else finite (n * 2 ^ (E - e).toNat : Nat) e
    else
      let s : Nat := (e - E).toNat
      let q : Nat := n / 2 ^ s
      let r : Nat := n % 2 ^ s
      let q1 : Nat := if 2 ^ (s - 1) < r ∨ (r = 2 ^ (s - 1) ∧ q % 2 = 1) then q + 1 else q
      if q1 = 2 ^ 53 then
        (if MAX_EXP < e + 1 then inf false else finite (2 ^ 52 : Nat) (e + 1))
      else
        (if MAX_EXP < e then inf false else finite q1 e)

/-- The `double` nearest to `M * 2 ^ E`. -/
def round (M : Int) (E : Int) : Double :=
  if M < 0 then neg (roundNat M.natAbs E) else roundNat M.natAbs E

/-- Addition: the exact sum, rounded. -/
def add : Double → Double → Double
  | nan, _ => nan
  | _, nan => nan
  | inf a, inf b => if a = b then inf a else nan
  | inf a, finite _ _ => inf a
  | finite _ _, inf b => inf b
  | finite m1 e1, finite m2 e2 =>
    round (m1 * 2 ^ (e1 - min e1 e2).toNat + m2 * 2 ^ (e2 - min e1 e2).toNat) (min e1 e2)

/-- Subtraction: the exact difference, rounded. -/
def sub (a b : Double) : Double := add a (neg b)

/-- Multiplication: the exact product, rounded. -/
def mul : Double → Double → Double
  | nan, _ => nan
  | _, nan => nan
  | inf a, inf b => inf (a != b)
  | inf a, finite m _ => if m = 0 then nan else inf (a != decide (m < 0))
  | finite m _, inf b => if m = 0 then nan else inf (decide (m < 0) != b)
  | finite m1 e1, finite m2 e2 => round (m1 * m2) (e1 + e2)

/-- The `double` nearest to the quotient `N / D` of two positive numbers: the
quotient is cut after 55 digits or more and a last digit records whether
anything was cut off, which rounds like the quotient itself. -/
def ofRatio (N D : Nat) : Double :=
  let s : Nat := 55 + bitLength D - bitLength N
  let q : Nat := N * 2 ^ s / D
  let jam : Nat := if N * 2 ^ s % D = 0 then 0 else 1
  roundNat (2 * q + jam) (-(s : Int) - 1)

/-- The value of a decimal literal: the `double` nearest to
`mantissa * 10 ^ (± decimalExponent)`. -/
def ofScientific (mantissa : Nat) (exponentSign : Bool) (decimalExponent : Nat) : Double :=
  if exponentSign then ofRatio mantissa (10 ^ decimalExponent)
  else roundNat (mantissa * 10 ^ decimalExponent) 0

/-- The comparison `a <= b`; it is false when either side is NaN. -/
def le : Double → Double → Bool
  | nan, _ => false
  | _, nan => false
  | inf a, inf b => a || !b
  | inf a, finite _ _ => a
  | finite _ _, inf b => !b
  | finite m1 e1, finite m2 e2 =>
    decide (m1 * 2 ^ (e1 - min e1 e2).toNat ≤ m2 * 2 ^ (e2 - min e1 e2).toNat)

/-- Not negative: a finite number `m * 2 ^ e` with `0 ≤ m`, or `+∞`. -/
def nonneg : Double → Prop
  | finite m _ => 0 ≤ m
  | inf negative => negative = false
  | nan => False

instance : Zero Double := ⟨finite 0 MIN_EXP⟩

instance : One Double := ⟨finite (2 ^ 52) (-52)⟩

instance : Add Double := ⟨add⟩

instance : Sub Double := ⟨sub⟩

instance : Mul Double := ⟨mul⟩

instance : Neg Double := ⟨neg⟩

instance : OfScientific Double := ⟨ofScientific⟩

instance : LE Double := ⟨fun a b => le a b = true⟩

instance (a b : Double) : Decidable (a ≤ b) := inferInstanceAs (Decidable (le a b = true))

end Double

/-! ## Points of the Cartesian kernel -/

/-- Modelled from the spec: the `Point` type of `cartesian_kernel.h` is not part
of the example file.  A point is a vector of fixed dimension `d` over the number
type `K`. -/
abbrev Point (d : Nat) (K : Type) := Fin d → K

namespace Point

variable {d : Nat} {K : Type}

/-- Modelled from the spec: coefficient-wise difference `p - q` of two points
of the same dimension (`Point::operator-` of the absent kernel header). -/
def sub [Sub K] (p q : Point d K) : Point d K := fun j => p j - q j

/-- Modelled from the spec: scalar multiple `k * p` (`operator*` of the absent
kernel header). -/
def smul [Mul K] (k : K) (p : Point d K) : Point d K := fun j => k * p j

/-- Modelled from the spec: inner product `p.dot(q)` (absent kernel header), the
products summed in index order.  The order matters to rounding only; for
`d ≤ 2` every order gives the same `double`. -/
def dot [Zero K] [Add K] [Mul K] (p q : Point d K) : K :=
  (List.finRange d).foldl (fun acc j => acc + p j * q j) 0

end Point

/-! ## `unsigned int` arithmetic -/

/-- Number of values of a 32-bit `unsigned int`. -/
def UINT_SIZE : Nat := 2 ^ 32

/-- Wrap-around subtraction of `unsigned int`. -/
def usub (a b : Nat) : Nat := (a % UINT_SIZE + UINT_SIZE - b % UINT_SIZE) % UINT_SIZE

/-- Wrap-around addition of `unsigned int`. -/
def uadd (a b : Nat) : Nat := (a + b) % UINT_SIZE

/-! ## `CustomFunctor` -/

namespace CustomFunctor

/-- The struct `CustomFunctor::parameters<NT, Point>`. -/
structure parameters (d : Nat) (K : Type) where
  /-- State order of the ODE (`unsigned int`). -/
  order : Nat
  /-- Lipschitz constant for the gradient. -/
  L : K
  /-- Strong convexity constant. -/
  m : K
  /-- Condition number. -/
  kappa : K
  /-- Centre of the density. -/
  x0 : Point d K

/-- The constructor `parameters(Point x0_) : order(2), L(1), m(1), kappa(1), x0(x0_)`. -/
def parameters.ctor {d : Nat} {K : Type} [One K] (x0_ : Point d K) : parameters d K :=
  { order := 2, L := 1, m := 1, kappa := 1, x0 := x0_ }

/-- The call operator of `CustomFunctor::GradientFunctor`: `i` is the state index,
`xs` the state vector, `t` the time.
```
if (i == params.order - 1) { Point y = (-1.0) * (xs[0] - params.x0); return y; }
else { return xs[i + 1]; }
```
-/
def GradientFunctor {d : Nat} {K : Type} [Sub K] [Mul K] [Neg K] [One K]
    (params : parameters d K)
    (i : Nat) (xs : List (Point d K)) (_t : K) : Option (Point d K) :=
  if i = usub params.order 1 then
    (xs[0]?).map fun x => Point.smul (-1) (Point.sub x params.x0)
  else
    xs[uadd i 1]?

/-- The call operator of `CustomFunctor::FunctionFunctor`:
```
Point y = x - params.x0; return 0.5 * y.dot(y);
```
-/
def FunctionFunctor {d : Nat} {K : Type} [Zero K] [Add K] [Sub K] [Mul K] [OfScientific K]
    (params : parameters d K) (x : Point d K) : K :=
  let y := Point.sub x params.x0
  0.5 * Point.dot y y

end CustomFunctor

open CustomFunctor

/-- The vector `g` is the gradient of `f` at `x`: the Fréchet derivative of `f`
at `x` is the linear form `v ↦ ∑ j, g j * v j`. -/
def IsGradientAt {d : Nat} (f : Point d ℝ → ℝ) (g x : Point d ℝ) : Prop :=
  HasFDerivAt f (∑ j, g j • (ContinuousLinearMap.proj j : (Fin d → ℝ) →L[ℝ] ℝ)) x


/-! ## The sampling driver `sample_points` and its sinks -/

/-- Modelled from the spec: the error taxonomy of §7.  No header of the sampling
library is part of the example file. -/
inductive SamplingError
  | InfeasibleStart
  | ConvergenceFailure
  | CapacityExceeded
  | IncompatibleConfiguration
  deriving DecidableEq, Repr

/-- Modelled from the spec: the common contract of every walk variant (§4.1);
`random_walks.hpp` is not part of the example file.  `B` is the convex body, `D` the
distribution, `R` the random source, `P` the point type and `S` the kernel state,
which is created once per session from the starting point and owns the random
source.  `step` is one total elementary move; the kernel error signals of §7 are
preconditions of the driver contract of §4.2 and are not modelled. -/
structure WalkKernel (B D R P S : Type) where
  /-- Kernel state for a session starting at a given point. -/
  init : B → P → R → S
  /-- One elementary move. -/
  step : B → D → S → S
  /-- The point the kernel currently holds. -/
  current_point : S → P

/-- The Eigen matrix `MT`, seen column by column: `cols` columns of `rows`
coefficients each.  A column is `none` until it is written (Eigen does not
initialise the storage). -/
structure MT (P : Type) where
  rows : Nat
  cols : Nat
  cells : List (Option P)

/-- The constructor `MT samples(rows, cols)`. -/
def MT.create {P : Type} (rows cols : Nat) : MT P :=
  { rows := rows, cols := cols, cells := List.replicate cols none }

/-- Modelled from the spec: a collection sink (§4.3) is a store `T` with one
operation, the recording of sample number `i`. -/
structure CollectionSink (P T : Type) where
  /-- Record the sample number `i`. -/
  record : T → Nat → P → Except SamplingError T

/-- Modelled from the spec: the append-only sequence (`std::vector<Point>`),
which grows without bound in generation order. -/
def sequenceSink {P : Type} : CollectionSink P (List P) :=
  { record := fun points _ p => .ok (points ++ [p]) }

/-- Modelled from the spec: the fixed-capacity columnar buffer (`MT`): sample
number `i` is written to column `i`, and a write past the capacity is
`CapacityExceeded`. -/
def columnarSink {P : Type} : CollectionSink P (MT P) :=
  { record := fun samples i p =>
      if i < samples.cols then
        .ok { samples with cells := samples.cells.set i (some p) }
      else
        .error .CapacityExceeded }

/-- What the driver does, in order: a kernel step, or the recording of sample
number `i` with value `p`. -/
inductive Event (P : Type)
  | kernelStep
  | record (i : Nat) (p : P)
  deriving DecidableEq, Repr

/-- Number of kernel steps in a trace. -/
def kernelSteps {P : Type} : List (Event P) → Nat
  | [] => 0
  | .kernelStep :: es => kernelSteps es + 1
  | .record _ _ :: es => kernelSteps es

/-- The recorded samples of a trace, in the order they were recorded. -/
def recorded {P : Type} : List (Event P) → List (Nat × P)
  | [] => []
  | .kernelStep :: es => recorded es
  | .record i p :: es => (i, p) :: recorded es

/-- State of one driver run: the kernel state, the sink, and the trace of what
has been done so far. -/
structure RunState (P S T : Type) where
  kernel : S
  sink : T
  trace : List (Event P)

/-- Modelled from the spec: `n` kernel steps with no recording (§4.2). -/
def advance {B D R P S T : Type} (k : WalkKernel B D R P S) (body : B) (distr : D) :
    Nat → RunState P S T → RunState P S T
  | 0, s => s
  | n + 1, s =>
    advance k body distr n
      { s with kernel := k.step body distr s.kernel, trace := s.trace ++ [Event.kernelStep] }

/-- Modelled from the spec: the sampling phase (§4.2).  For each of the
`remaining` samples: `walk_length` kernel steps, then `current_point` is recorded
into the sink as sample number `i`. -/
def collect {B D R P S T : Type} (k : WalkKernel B D R P S) (body : B) (distr : D)
    (out : CollectionSink P T) (walk_length : Nat) :
    Nat → Nat → RunState P S T → Except SamplingError (RunState P S T)
  | 0, _, s => .ok s
  | remaining + 1, i, s =>
    let s1 := advance k body distr walk_length s
    let p := k.current_point s1.kernel
    match out.record s1.sink i p with
    | .error e => .error e
    | .ok sink =>
      collect k body distr out walk_length remaining (i + 1)
        { s1 with sink := sink, trace := s1.trace ++ [Event.record i p] }

/-- Modelled from the spec: the driver `run` of §4.2, that is `sample_points` of
`sampling/sample_points.hpp`, which is not part of the example file: exactly
`burn_in_count` kernel steps with no recording, then `sample_count` samples
`walk_length` steps apart. -/
def sample_points {B D R P S T : Type} (out : CollectionSink P T) (body : B)
    (start_point : P) (k : WalkKernel B D R P S) (distr : D) (rng : R)
    (walk_length sample_count burn_in_count : Nat) (sink : T) :
    Except SamplingError (RunState P S T) :=
  collect k body distr out walk_length sample_count 0
    (advance k body distr burn_in_count
      { kernel := k.init body start_point rng, sink := sink, trace := [] })

/-- The kernel state after `n` elementary moves from the start. -/
def stateAfter {B D R P S : Type} (k : WalkKernel B D R P S) (body : B) (distr : D)
    (start_point : P) (rng : R) (n : Nat) : S :=
  (k.step body distr)^[n] (k.init body start_point rng)

/-- The sample number `i` the driver contract promises: the kernel's point
after the burn-in and `i + 1` rounds of `walk_length` moves. -/
def nthSample {B D R P S : Type} (k : WalkKernel B D R P S) (body : B) (distr : D)
    (start_point : P) (rng : R) (walk_length burn_in_count i : Nat) : P :=
  k.current_point (stateAfter k body distr start_point rng
    (burn_in_count + (i + 1) * walk_length))

/-- The trace the driver contract promises for the samples `i, i + 1, ...`:
for each one `walk_length` steps and then its recording. -/
def samplingTrace {P : Type} (sample : Nat → P) (walk_length : Nat) :
    Nat → Nat → List (Event P)
  | 0, _ => []
  | n + 1, i =>
    List.replicate walk_length Event.kernelStep ++ [Event.record i (sample i)]
      ++ samplingTrace sample walk_length n (i + 1)

/-! ## The diagnostics `effective_sample_size` -/

namespace Diagnostics

/-- Modelled from the spec: the sample mean of one coordinate chain (§4.4);
`diagnostics/diagnostics.hpp` is not part of the example file. -/
def sample_mean (xs : List ℚ) : ℚ := xs.sum / xs.length

/-- Modelled from the spec: the autocovariance of a coordinate chain at lag `k`. -/
def autocovariance (xs : List ℚ) (k : Nat) : ℚ :=
  ((List.range (xs.length - k)).map fun t =>
    (xs.getD t 0 - sample_mean xs) * (xs.getD (t + k) 0 - sample_mean xs)).sum / xs.length

/-- Modelled from the spec: the normalized autocorrelation at lag `k` (§4.4).
For a chain of zero variance the quotient is `0 / 0`, which is `0` in a field
of this library (an IEEE quotient is NaN there, which is not positive either). -/
def autocorrelation (xs : List ℚ) (k : Nat) : ℚ :=
  autocovariance xs k / autocovariance xs 0

/-- Modelled from the spec: the sum of the positive prefix of an autocorrelation
sequence from lag `k` on, over at most `n` lags: summing stops at the first
lag whose autocorrelation is not positive, or at the cutoff (§4.4). -/
def positive_prefix_sum (rho : Nat → ℚ) : Nat → Nat → ℚ
  | _, 0 => 0
  | k, n + 1 => if 0 < rho k then rho k + positive_prefix_sum rho (k + 1) n else 0

/-- Clipping of `x` to the interval `[lo, hi]`. -/
def clip (lo hi x : ℚ) : ℚ := max lo (min hi x)

/-- Modelled from the spec: the estimate of one coordinate (§3, §4.4),
`N / (1 + 2 * Σ positive-lag autocorrelations)` clipped to `[0, N]`, where `N` is
the number of samples and `max_lag` the maximum-lag cutoff, which the spec
leaves open. -/
def ess_coordinate (max_lag : Nat) (xs : List ℚ) : ℚ :=
  clip 0 xs.length
    (xs.length /
      (1 + 2 * positive_prefix_sum (autocorrelation xs) 1 (min max_lag (xs.length - 1))))

/-- Minimum coefficient of a vector of estimates; a batch with no coordinate
has no estimate, and the value is then `0`. -/
def minCoeff : List ℚ → ℚ
  | [] => 0
  | e :: es => es.foldl min e

/-- Modelled from the spec: `effective_sample_size(batch)` of §4.4: the
per-coordinate estimates and their minimum. -/
def effective_sample_size {d : Nat} (max_lag : Nat) (batch : List (Point d ℚ)) :
    List ℚ × ℚ :=
  let score := List.ofFn fun j : Fin d => ess_coordinate max_lag (batch.map fun p => p j)
  (score, minCoeff score)

/-- The value an `unsigned int` holds after a non-negative `double` is stored in
it: the integer part. -/
def toUnsigned (x : ℚ) : Nat := ⌊x⌋₊ % UINT_SIZE

end Diagnostics

/-! ## `sample_points_eigen_matrix` -/

/-- What one call of `sample_points_eigen_matrix` leaves behind: the filled
matrix, the trace of the driver, the estimates `score` and the number printed
after `ess=`. -/
structure Report (d : Nat) where
  samples : MT (Point d ℚ)
  trace : List (Event (Point d ℚ))
  score : List ℚ
  min_ess : Nat

/-- The function `sample_points_eigen_matrix`; `d` is `HP.dimension()` and
`max_lag` the cutoff of the diagnostics.  The `int` arguments are taken
non-negative.  The diagnostics read the written columns of `samples`, in column
order, and `min_ess` is the `unsigned int` the reported minimum is stored in.
```
MT samples(HP.dimension(), rnum);
sample_points(HP, q, walk, distr, rng, walk_len, rnum, nburns, samples);
unsigned int min_ess;
auto score = effective_sample_size<NT, VT, MT>(samples, min_ess);
std::cout << "ess=" << min_ess << std::endl;
```
-/
def sample_points_eigen_matrix {B D R S : Type} {d : Nat} (max_lag : Nat)
    (HP : B) (q : Point d ℚ) (walk : WalkKernel B D R (Point d ℚ) S) (distr : D) (rng : R)
    (walk_len rnum nburns : Nat) : Except SamplingError (Report d) :=
  match sample_points columnarSink HP q walk distr rng walk_len rnum nburns
      (MT.create d rnum) with
  | .error e => .error e
  | .ok s =>
    let ess := Diagnostics.effective_sample_size max_lag s.sink.cells.reduceOption
    .ok { samples := s.sink, trace := s.trace, score := ess.1,
          min_ess := Diagnostics.toUnsigned ess.2 }

/-! # Theorems -/

/-! ## Exact arithmetic -/

theorem foldl_add_eq_sum {K J : Type} [AddCommMonoid K] (f : J → K) (l : List J) :
    ∀ acc : K, l.foldl (fun acc j => acc + f j) acc = acc + (l.map f).sum := by
  induction l with
  | nil => intro acc; simp
  | cons a as ih =>
    intro acc
    simp only [List.foldl_cons, ih, List.map_cons, List.sum_cons, add_assoc]

/-- In exact arithmetic the inner product is the sum of the products. -/
theorem Point.dot_eq_sum {d : Nat} {K : Type} [Semiring K] (p q : Point d K) :
    Point.dot p q = ∑ j, p j * q j := by
  unfold Point.dot
  rw [foldl_add_eq_sum (fun j => p j * q j), zero_add, Fin.sum_univ_def]

/-- In exact arithmetic the literal `0.5` is one half. -/
theorem half_eq {K : Type} [DivisionRing K] [CharZero K] : (0.5 : K) = 1 / 2 := by
  norm_num

theorem FunctionFunctor_isGradientAt {d : Nat} (params : parameters d ℝ) (x : Point d ℝ) :
    IsGradientAt (FunctionFunctor params) (Point.sub x params.x0) x := by
  unfold IsGradientAt
  have hcoord : ∀ j : Fin d, HasFDerivAt (fun y : Fin d → ℝ => y j - params.x0 j)
      (ContinuousLinearMap.proj j : (Fin d → ℝ) →L[ℝ] ℝ) x := fun j =>
    (hasFDerivAt_apply j x).sub_const _
  have hsq : ∀ j ∈ (Finset.univ : Finset (Fin d)),
      HasFDerivAt (fun y : Fin d → ℝ => (y j - params.x0 j) * (y j - params.x0 j))
        ((x j - params.x0 j) • (ContinuousLinearMap.proj j : (Fin d → ℝ) →L[ℝ] ℝ)
          + (x j - params.x0 j) • (ContinuousLinearMap.proj j : (Fin d → ℝ) →L[ℝ] ℝ)) x :=
    fun j _ => (hcoord j).mul (hcoord j)
  have hsum := (HasFDerivAt.sum hsq).const_mul (1 / 2 : ℝ)
  have hfun : FunctionFunctor params
      = fun y : Fin d → ℝ => (1 / 2 : ℝ) * ∑ j, (y j - params.x0 j) * (y j - params.x0 j) := by
    funext y
    simp only [FunctionFunctor, Point.dot_eq_sum, Point.sub, half_eq]
  rw [hfun]
  convert hsum using 1
  ext v
  simp only [Point.sub, ContinuousLinearMap.sum_apply, ContinuousLinearMap.smul_apply,
    ContinuousLinearMap.add_apply, ContinuousLinearMap.proj_apply, smul_eq_mul,
    Finset.mul_sum]
  refine Finset.sum_congr rfl fun j _ => ?_
  ring

theorem kernelSteps_append {P : Type} (a b : List (Event P)) :
    kernelSteps (a ++ b) = kernelSteps a + kernelSteps b := by
  induction a with
  | nil => simp [kernelSteps]
  | cons e es ih =>
    cases e with
    | kernelStep => simp [kernelSteps, ih]; omega
    | record i p => simp [kernelSteps, ih]

theorem kernelSteps_replicate {P : Type} (n : Nat) :
    kernelSteps (List.replicate n (Event.kernelStep : Event P)) = n := by
  induction n with
  | zero => simp [kernelSteps]
  | succ n ih => simp [List.replicate_succ, kernelSteps, ih]

theorem recorded_append {P : Type} (a b : List (Event P)) :
    recorded (a ++ b) = recorded a ++ recorded b := by
  induction a with
  | nil => simp [recorded]
  | cons e es ih =>
    cases e with
    | kernelStep => simp [recorded, ih]
    | record i p => simp [recorded, ih]

theorem recorded_replicate {P : Type} (n : Nat) :
    recorded (List.replicate n (Event.kernelStep : Event P)) = [] := by
  induction n with
  | zero => simp [recorded]
  | succ n ih => simp [List.replicate_succ, recorded, ih]

theorem kernelSteps_samplingTrace {P : Type} (sample : Nat → P) (walk_length n i : Nat) :
    kernelSteps (samplingTrace sample walk_length n i) = n * walk_length := by
  induction n generalizing i with
  | zero => simp [samplingTrace, kernelSteps]
  | succ n ih =>
    simp only [samplingTrace, kernelSteps_append, kernelSteps_replicate, ih, kernelSteps]
    ring

theorem recorded_samplingTrace {P : Type} (sample : Nat → P) (walk_length n i : Nat) :
    recorded (samplingTrace sample walk_length n i)
      = (List.range' i n).map fun j => (j, sample j) := by
  induction n generalizing i with
  | zero => simp [samplingTrace, recorded]
  | succ n ih =>
    simp only [samplingTrace, recorded_append, recorded_replicate, ih, recorded,
      List.range'_succ, List.map_cons, List.nil_append, List.cons_append]

theorem advance_eq {B D R P S T : Type} (k : WalkKernel B D R P S) (body : B) (distr : D)
    (n : Nat) (s : RunState P S T) :
    advance k body distr n s
      = { kernel := (k.step body distr)^[n] s.kernel, sink := s.sink,
          trace := s.trace ++ List.replicate n Event.kernelStep } := by
  induction n generalizing s with
  | zero => simp [advance]
  | succ n ih =>
    simp only [advance, ih, Function.iterate_succ_apply, List.replicate_succ,
      List.append_assoc, List.singleton_append]

theorem stateAfter_add {B D R P S : Type} (k : WalkKernel B D R P S) (body : B) (distr : D)
    (start_point : P) (rng : R) (a b : Nat) :
    (k.step body distr)^[b] (stateAfter k body distr start_point rng a)
      = stateAfter k body distr start_point rng (a + b) := by
  unfold stateAfter
  rw [Nat.add_comm a b, Function.iterate_add_apply]

/-- The sampling phase on a columnar buffer with room for the samples
`i, ..., i + n - 1`: it succeeds, follows the promised trace and fills exactly the
columns `i, ..., i + n - 1`. -/
theorem collect_columnar {B D R P S : Type} (k : WalkKernel B D R P S) (body : B) (distr : D)
    (start_point : P) (rng : R) (walk_length burn_in_count : Nat) (n : Nat) :
    ∀ (i : Nat) (s : RunState P S (MT P)),
      s.kernel = stateAfter k body distr start_point rng (burn_in_count + i * walk_length) →
      s.sink.cells.length = s.sink.cols → i + n ≤ s.sink.cols →
      ∃ r, collect k body distr columnarSink walk_length n i s = .ok r
        ∧ r.kernel = stateAfter k body distr start_point rng
            (burn_in_count + (i + n) * walk_length)
        ∧ r.trace = s.trace ++ samplingTrace
            (nthSample k body distr start_point rng walk_length burn_in_count) walk_length n i
        ∧ r.sink.rows = s.sink.rows ∧ r.sink.cols = s.sink.cols
        ∧ r.sink.cells.length = s.sink.cols
        ∧ ∀ j, r.sink.cells[j]? =
            if i ≤ j ∧ j < i + n then
              some (some (nthSample k body distr start_point rng walk_length burn_in_count j))
            else s.sink.cells[j]? := by
  induction n with
  | zero =>
    intro i s hk hlen _
    refine ⟨s, rfl, by simpa using hk, by simp [samplingTrace], rfl, rfl, hlen, ?_⟩
    intro j
    rw [if_neg (by omega)]
  | succ n ih =>
    intro i s hk hlen hcap
    have hi : i < s.sink.cols := by omega
    have hstate : (k.step body distr)^[walk_length] s.kernel
        = stateAfter k body distr start_point rng (burn_in_count + (i + 1) * walk_length) := by
      rw [hk, stateAfter_add]
      congr 1
      ring
    obtain ⟨r, hr, hker, htr, hrows, hcols, hlen2, hcells⟩ :=
      ih (i + 1)
        { kernel := (k.step body distr)^[walk_length] s.kernel,
          sink := { s.sink with cells := (s.sink.cells.set i
            (some (k.current_point ((k.step body distr)^[walk_length] s.kernel)))) },
          trace := s.trace ++ List.replicate walk_length Event.kernelStep
            ++ [Event.record i (k.current_point ((k.step body distr)^[walk_length] s.kernel))] }
        hstate (by simpa using hlen) (by simp; omega)
    refine ⟨r, ?_, ?_, ?_, ?_, ?_, ?_, ?_⟩
    · simp only [collect, advance_eq, columnarSink, hi, if_true]
      exact hr
    · rw [hker]
      congr 2
      ring
    · rw [htr]
      have hs : k.current_point ((k.step body distr)^[walk_length] s.kernel)
          = nthSample k body distr start_point rng walk_length burn_in_count i := by
        rw [hstate]
        rfl
      simp only [samplingTrace, hs, List.append_assoc]
    · simpa using hrows
    · simpa using hcols
    · simpa using hlen2
    · intro j
      rw [hcells j]
      have hs : k.current_point ((k.step body distr)^[walk_length] s.kernel)
          = nthSample k body distr start_point rng walk_length burn_in_count i := by
        rw [hstate]
        rfl
      by_cases h1 : i + 1 ≤ j ∧ j < i + 1 + n
      · have h2 : i ≤ j ∧ j < i + (n + 1) := by omega
        simp [h1, h2]
      · rw [if_neg h1]
        by_cases h3 : j = i
        · subst h3
          have h2 : j ≤ j ∧ j < j + (n + 1) := by omega
          rw [if_pos h2]
          simp only [List.getElem?_set_self (by omega : j < s.sink.cells.length), hs]
        · have h2 : ¬ (i ≤ j ∧ j < i + (n + 1)) := by omega
          rw [if_neg h2]
          simp only [List.getElem?_set_ne (Ne.symm h3)]

/-- The driver on the buffer `MT.create rows sample_count`: the run succeeds, the
kernel has made `burn_in_count + sample_count * walk_length` moves, the trace is
the burn-in followed by the sampling rounds, and column `i` holds sample `i`. -/
theorem sample_points_columnar {B D R P S : Type} (k : WalkKernel B D R P S) (body : B)
    (distr : D) (start_point : P) (rng : R)
    (walk_length sample_count burn_in_count rows : Nat) :
    ∃ r, sample_points columnarSink body start_point k distr rng walk_length sample_count
          burn_in_count (MT.create rows sample_count) = .ok r
      ∧ r.kernel = stateAfter k body distr start_point rng
          (burn_in_count + sample_count * walk_length)
      ∧ r.trace = List.replicate burn_in_count Event.kernelStep ++ samplingTrace
          (nthSample k body distr start_point rng walk_length burn_in_count)
          walk_length sample_count 0
      ∧ r.sink.rows = rows ∧ r.sink.cols = sample_count
      ∧ r.sink.cells = (List.range sample_count).map fun i =>
          some (nthSample k body distr start_point rng walk_length burn_in_count i) := by
  obtain ⟨r, hr, hker, htr, hrows, hcols, hlen, hcells⟩ :=
    collect_columnar k body distr start_point rng walk_length burn_in_count sample_count 0
      { kernel := (k.step body distr)^[burn_in_count] (k.init body start_point rng),
        sink := MT.create rows sample_count,
        trace := [] ++ List.replicate burn_in_count Event.kernelStep }
      (by simp [stateAfter]) (by simp [MT.create]) (by simp [MT.create])
  refine ⟨r, ?_, ?_, ?_, ?_, ?_, ?_⟩
  · simp only [sample_points, advance_eq]
    exact hr
  · simpa using hker
  · simpa using htr
  · simpa [MT.create] using hrows
  · simpa [MT.create] using hcols
  · apply List.ext_getElem?
    intro j
    rw [hcells j]
    by_cases hj : j < sample_count
    · simp [hj, List.getElem?_range]
    · have : ¬ (0 ≤ j ∧ j < 0 + sample_count) := by omega
      rw [if_neg this]
      have hnone : ((List.range sample_count).map fun i =>
          some (nthSample k body distr start_point rng walk_length burn_in_count i))[j]? = none := by
        apply List.getElem?_eq_none
        simp
        omega
      rw [hnone]
      apply List.getElem?_eq_none
      simp [MT.create]
      omega

/-- The function `sample_points_eigen_matrix` returns a report exactly when
the driver run succeeds, and the report carries the run's buffer and trace. -/
theorem sample_points_eigen_matrix_of_run {B D R S : Type} {d : Nat} (max_lag : Nat)
    (HP : B) (q : Point d ℚ) (walk : WalkKernel B D R (Point d ℚ) S) (distr : D) (rng : R)
    (walk_len rnum nburns : Nat) (r : RunState (Point d ℚ) S (MT (Point d ℚ)))
    (hr : sample_points columnarSink HP q walk distr rng walk_len rnum nburns
      (MT.create d rnum) = .ok r) :
    ∃ rep, sample_points_eigen_matrix max_lag HP q walk distr rng walk_len rnum nburns = .ok rep
      ∧ rep.samples = r.sink ∧ rep.trace = r.trace
      ∧ rep.score = (Diagnostics.effective_sample_size max_lag r.sink.cells.reduceOption).1
      ∧ rep.min_ess = Diagnostics.toUnsigned
          (Diagnostics.effective_sample_size max_lag r.sink.cells.reduceOption).2 := by
  unfold sample_points_eigen_matrix
  rw [hr]
  exact ⟨_, rfl, rfl, rfl, rfl, rfl⟩

/-! ## C1 and C2: the driver -/

/-- C1: for all non-negative `walk_len`, `rnum` and `nburns`, the driver call made
by `sample_points_eigen_matrix` succeeds and performs exactly
`nburns + rnum * walk_len` kernel steps: its trace is `nburns` unrecorded steps
followed, for each sample, by `walk_len` steps and then the recording; the kernel
ends in the state reached by that many moves. -/
theorem sample_points_kernel_steps {B D R P S : Type} (walk : WalkKernel B D R P S)
    (HP : B) (distr : D) (q : P) (rng : R) (walk_len rnum nburns d : Nat) :
    ∃ r, sample_points columnarSink HP q walk distr rng walk_len rnum nburns
          (MT.create d rnum) = .ok r
      ∧ kernelSteps r.trace = nburns + rnum * walk_len
      ∧ r.trace = List.replicate nburns Event.kernelStep ++ samplingTrace
          (nthSample walk HP distr q rng walk_len nburns) walk_len rnum 0
      ∧ r.kernel = stateAfter walk HP distr q rng (nburns + rnum * walk_len) := by
  obtain ⟨r, hr, hker, htr, -, -, -⟩ :=
    sample_points_columnar walk HP distr q rng walk_len rnum nburns d
  refine ⟨r, hr, ?_, htr, hker⟩
  rw [htr, kernelSteps_append, kernelSteps_replicate, kernelSteps_samplingTrace]

/-- C1 on the example's numbers `nburns = 5`, `rnum = 20`, `walk_len = 2`, with a
kernel that counts its own moves: 45 kernel steps. -/
theorem sample_points_kernel_steps_example :
    ∃ r, sample_points columnarSink () (0 : Nat)
          ({ init := fun _ p _ => p, step := fun _ _ n => n + 1, current_point := fun n => n } :
            WalkKernel Unit Unit Unit Nat Nat) () () 2 20 5 (MT.create 10 20) = .ok r
      ∧ kernelSteps r.trace = 45 := by
  obtain ⟨r, hr, hsteps, -, -⟩ := sample_points_kernel_steps
    ({ init := fun _ p _ => p, step := fun _ _ n => n + 1, current_point := fun n => n } :
      WalkKernel Unit Unit Unit Nat Nat) () () (0 : Nat) () 2 20 5 10
  exact ⟨r, hr, hsteps⟩

/-- C2: the buffer `sample_points_eigen_matrix` builds has `d` rows and `rnum`
columns; the call succeeds (no `CapacityExceeded`), the buffer keeps its shape,
exactly `rnum` samples are recorded, numbered `0, ..., rnum - 1` in generation
order, and column `i` holds sample `i`; with `rnum = 0` the buffer stays empty,
nothing is recorded and exactly `nburns` steps are made. -/
theorem sample_points_eigen_matrix_sink {B D R S : Type} {d : Nat} (max_lag : Nat)
    (HP : B) (q : Point d ℚ) (walk : WalkKernel B D R (Point d ℚ) S) (distr : D) (rng : R)
    (walk_len rnum nburns : Nat) :
    ((MT.create d rnum : MT (Point d ℚ)).rows = d
      ∧ (MT.create d rnum : MT (Point d ℚ)).cols = rnum
      ∧ (MT.create d rnum : MT (Point d ℚ)).cells.length = rnum)
    ∧ (∃ rep, sample_points_eigen_matrix max_lag HP q walk distr rng walk_len rnum nburns
          = .ok rep
        ∧ rep.samples.rows = d ∧ rep.samples.cols = rnum
        ∧ rep.samples.cells = (List.range rnum).map (fun i =>
            some (nthSample walk HP distr q rng walk_len nburns i))
        ∧ recorded rep.trace = (List.range rnum).map (fun i =>
            (i, nthSample walk HP distr q rng walk_len nburns i))
        ∧ (recorded rep.trace).length = rnum)
    ∧ (∃ rep, sample_points_eigen_matrix max_lag HP q walk distr rng walk_len 0 nburns
          = .ok rep
        ∧ rep.samples.cells = [] ∧ recorded rep.trace = []
        ∧ kernelSteps rep.trace = nburns) := by
  refine ⟨⟨rfl, rfl, by simp [MT.create]⟩, ?_, ?_⟩
  · obtain ⟨r, hr, -, htr, hrows, hcols, hcells⟩ :=
      sample_points_columnar walk HP distr q rng walk_len rnum nburns d
    obtain ⟨rep, hrep, hs, ht, -, -⟩ :=
      sample_points_eigen_matrix_of_run max_lag HP q walk distr rng walk_len rnum nburns r hr
    have hrec : recorded rep.trace = (List.range rnum).map fun i =>
        (i, nthSample walk HP distr q rng walk_len nburns i) := by
      rw [ht, htr, recorded_append, recorded_replicate, recorded_samplingTrace,
        List.range_eq_range', List.nil_append]
    refine ⟨rep, hrep, by rw [hs, hrows], by rw [hs, hcols], by rw [hs, hcells], hrec, ?_⟩
    simp [hrec]
  · obtain ⟨r, hr, -, htr, -, -, hcells⟩ :=
      sample_points_columnar walk HP distr q rng walk_len 0 nburns d
    obtain ⟨rep, hrep, hs, ht, -, -⟩ :=
      sample_points_eigen_matrix_of_run max_lag HP q walk distr rng walk_len 0 nburns r hr
    refine ⟨rep, hrep, by rw [hs, hcells]; rfl, ?_, ?_⟩
    · rw [ht, htr, recorded_append, recorded_replicate]
      rfl
    · rw [ht, htr, kernelSteps_append, kernelSteps_replicate]
      rfl

/-! ## Diagnostics lemmas -/

namespace Diagnostics

theorem foldl_min_spec (es : List ℚ) :
    ∀ e : ℚ, es.foldl min e ≤ e ∧ (∀ x ∈ es, es.foldl min e ≤ x)
      ∧ (es.foldl min e = e ∨ es.foldl min e ∈ es) := by
  induction es with
  | nil => intro e; simp
  | cons a as ih =>
    intro e
    obtain ⟨h1, h2, h3⟩ := ih (min e a)
    simp only [List.foldl_cons]
    refine ⟨h1.trans (min_le_left _ _), ?_, ?_⟩
    · intro x hx
      rcases List.mem_cons.mp hx with rfl | hx
      · exact h1.trans (min_le_right _ _)
      · exact h2 x hx
    · rcases h3 with h3 | h3
      · rcases min_choice e a with hm | hm
        · left; rw [h3, hm]
        · right; rw [h3, hm]; exact List.mem_cons_self _ _
      · right; exact List.mem_cons_of_mem _ h3

theorem minCoeff_mem (es : List ℚ) (h : es ≠ []) : minCoeff es ∈ es := by
  cases es with
  | nil => exact absurd rfl h
  | cons e es =>
    obtain ⟨-, -, h3⟩ := foldl_min_spec es e
    rcases h3 with h3 | h3
    · simp only [minCoeff, h3]; exact List.mem_cons_self _ _
    · exact List.mem_cons_of_mem _ h3

theorem sample_mean_replicate (n : Nat) (c : ℚ) (h : 0 < n) :
    sample_mean (List.replicate n c) = c := by
  have hn : (n : ℚ) ≠ 0 := by exact_mod_cast h.ne.symm
  simp only [sample_mean, List.sum_replicate, List.length_replicate, nsmul_eq_mul]
  field_simp

theorem autocovariance_replicate (n k : Nat) (c : ℚ) :
    autocovariance (List.replicate n c) k = 0 := by
  unfold autocovariance
  have hzero : ((List.range ((List.replicate n c).length - k)).map fun t =>
      ((List.replicate n c).getD t 0 - sample_mean (List.replicate n c))
        * ((List.replicate n c).getD (t + k) 0 - sample_mean (List.replicate n c)))
      = (List.range ((List.replicate n c).length - k)).map fun _ => (0 : ℚ) := by
    apply List.map_congr_left
    intro t ht
    have ht2 : t < n := by
      have := List.mem_range.mp ht
      simp only [List.length_replicate] at this
      omega
    have hget : (List.replicate n c).getD t 0 = c := by
      simp [List.getD, List.getElem?_replicate, ht2]
    rw [hget, sample_mean_replicate n c (by omega)]
    ring
  rw [hzero]
  simp

theorem ess_coordinate_replicate (max_lag n : Nat) (c : ℚ) :
    ess_coordinate max_lag (List.replicate n c) = n := by
  have hrho : autocorrelation (List.replicate n c) 1 = 0 := by
    simp [autocorrelation, autocovariance_replicate]
  have hsum : ∀ m, positive_prefix_sum (autocorrelation (List.replicate n c)) 1 m = 0 := by
    intro m
    cases m with
    | zero => rfl
    | succ m => simp [positive_prefix_sum, hrho]
  simp [ess_coordinate, hsum, clip]

theorem effective_sample_size_replicate {d : Nat} (max_lag n : Nat) (p : Point d ℚ) :
    (effective_sample_size max_lag (List.replicate n p)).1 = List.replicate d (n : ℚ) := by
  simp only [effective_sample_size, List.map_replicate, ess_coordinate_replicate]
  exact List.ofFn_const d _

theorem minimum_replicate {d : Nat} (max_lag n : Nat) (p : Point d ℚ) (hd : 0 < d) :
    (effective_sample_size max_lag (List.replicate n p)).2 = n := by
  have hscore := effective_sample_size_replicate max_lag n p
  have hne : (effective_sample_size max_lag (List.replicate n p)).1 ≠ [] := by
    rw [hscore]
    intro h
    have := congrArg List.length h
    simp at this
    omega
  have hmem : (effective_sample_size max_lag (List.replicate n p)).2
      ∈ List.replicate d (n : ℚ) := by
    rw [← hscore]
    exact minCoeff_mem _ hne
  exact (List.mem_replicate.mp hmem).2

end Diagnostics

/-- With `walk_len = 0` every sample the driver contract promises is the point
the kernel holds after the burn-in. -/
theorem nthSample_walk_zero {B D R P S : Type} (k : WalkKernel B D R P S) (body : B) (distr : D)
    (start_point : P) (rng : R) (burn_in_count i : Nat) :
    nthSample k body distr start_point rng 0 burn_in_count i
      = k.current_point (stateAfter k body distr start_point rng burn_in_count) := by
  simp [nthSample]

theorem reduceOption_map_some {P : Type} (l : List P) :
    (l.map some).reduceOption = l := by
  induction l with
  | nil => rfl
  | cons a as ih => simp [List.reduceOption_cons_of_some, ih]

/-! ## C3 and C4: the effective sample size -/

/-- C4, what the diagnostics do on a chain that never moves: for a batch of `N`
copies of one point of dimension `d > 0`, every per-coordinate estimate is `N`,
the reported minimum is `N`, and `min_ess` reads `N`, not zero.  The same holds
end to end: with `walk_len = 0` the function `sample_points_eigen_matrix` records
`rnum` copies of one point and reports `min_ess = rnum`. -/
theorem effective_sample_size_constant_chain {d : Nat} (max_lag N : Nat) (p : Point d ℚ)
    (hd : 0 < d) (hN : N < UINT_SIZE) :
    ((Diagnostics.effective_sample_size max_lag (List.replicate N p)).1
        = List.replicate d (N : ℚ)
      ∧ (Diagnostics.effective_sample_size max_lag (List.replicate N p)).2 = N
      ∧ Diagnostics.toUnsigned
          (Diagnostics.effective_sample_size max_lag (List.replicate N p)).2 = N)
    ∧ ∀ (B D R S : Type) (walk : WalkKernel B D R (Point d ℚ) S) (HP : B) (q : Point d ℚ)
        (distr : D) (rng : R) (nburns : Nat),
        ∃ rep, sample_points_eigen_matrix max_lag HP q walk distr rng 0 N nburns = .ok rep
          ∧ rep.samples.cells = List.replicate N
              (some (walk.current_point (stateAfter walk HP distr q rng nburns)))
          ∧ rep.min_ess = N := by
  have hscore := Diagnostics.effective_sample_size_replicate max_lag N p
  have hmin := Diagnostics.minimum_replicate max_lag N p hd
  have hun : Diagnostics.toUnsigned (N : ℚ) = N := by
    simp [Diagnostics.toUnsigned, Nat.mod_eq_of_lt hN]
  refine ⟨⟨hscore, hmin, by rw [hmin, hun]⟩, ?_⟩
  intro B D R S walk HP q distr rng nburns
  obtain ⟨r, hr, -, -, -, -, hcells⟩ :=
    sample_points_columnar walk HP distr q rng 0 N nburns d
  obtain ⟨rep, hrep, hs, -, -, hme⟩ :=
    sample_points_eigen_matrix_of_run max_lag HP q walk distr rng 0 N nburns r hr
  have hconst : r.sink.cells = List.replicate N
      (some (walk.current_point (stateAfter walk HP distr q rng nburns))) := by
    rw [hcells]
    simp only [nthSample_walk_zero]
    simp [List.map_const']
  have hbatch : r.sink.cells.reduceOption = List.replicate N
      (walk.current_point (stateAfter walk HP distr q rng nburns)) := by
    rw [hconst, ← List.map_replicate, reduceOption_map_some]
  refine ⟨rep, hrep, by rw [hs, hconst], ?_⟩
  rw [hme, hbatch, Diagnostics.minimum_replicate max_lag N _ hd, hun]

/-- C4 on the example's batch shape: 20 copies of the origin of dimension 10 give
`min_ess = 20`. -/
theorem effective_sample_size_constant_chain_example :
    Diagnostics.toUnsigned
      (Diagnostics.effective_sample_size 20 (List.replicate 20 (fun _ => 0 : Point 10 ℚ))).2
      = 20 :=
  (effective_sample_size_constant_chain 20 20 (fun _ => 0 : Point 10 ℚ) (by decide)
    (by norm_num [UINT_SIZE])).1.2.2

/-! ## Double arithmetic -/

namespace Double

theorem zero_def : (0 : Double) = finite 0 MIN_EXP := rfl

theorem add_def (a b : Double) : a + b = add a b := rfl

theorem sub_def (a b : Double) : a - b = sub a b := rfl

theorem mul_def (a b : Double) : a * b = mul a b := rfl

theorem half_def : (0.5 : Double) = finite (2 ^ 52) (-53) := by decide

theorem roundNat_nonneg (n : Nat) (E : Int) : nonneg (roundNat n E) := by
  unfold roundNat
  simp only []
  split_ifs <;> simp only [nonneg] <;> positivity

theorem roundNat_ne_nan (n : Nat) (E : Int) : roundNat n E ≠ nan := by
  intro h
  have := roundNat_nonneg n E
  rw [h] at this
  exact this

theorem round_nonneg (M E : Int) (h : 0 ≤ M) : nonneg (round M E) := by
  unfold round
  rw [if_neg (not_lt.mpr h)]
  exact roundNat_nonneg _ _

theorem round_zero (E : Int) : round 0 E = 0 := by
  simp [round, roundNat, zero_def]

theorem neg_ne_nan (a : Double) (h : a ≠ nan) : neg a ≠ nan := by
  cases a <;> simp_all [neg]

theorem round_ne_nan (M E : Int) : round M E ≠ nan := by
  unfold round
  split_ifs
  · exact neg_ne_nan _ (roundNat_ne_nan _ _)
  · exact roundNat_ne_nan _ _

theorem sub_finite_ne_nan (a b : Double) (ha : a.isFinite = true) (hb : b.isFinite = true) :
    a - b ≠ nan := by
  cases a <;> cases b <;> simp_all [isFinite, sub_def, sub, neg, add, round_ne_nan]

theorem sub_self_finite (a : Double) (ha : a.isFinite = true) : a - a = 0 := by
  cases a with
  | finite m e => simp [sub_def, sub, neg, add, round_zero]
  | inf b => simp [isFinite] at ha
  | nan => simp [isFinite] at ha

theorem nonneg_add (a b : Double) (ha : nonneg a) (hb : nonneg b) : nonneg (a + b) := by
  cases a with
  | nan => exact ha.elim
  | inf x =>
    cases b with
    | nan => exact hb.elim
    | inf y =>
      simp only [nonneg] at ha hb
      subst ha
      subst hb
      simp [add_def, add, nonneg]
    | finite m e => simpa [add_def, add, nonneg] using ha
  | finite m1 e1 =>
    cases b with
    | nan => exact hb.elim
    | inf y => simpa [add_def, add, nonneg] using hb
    | finite m2 e2 =>
      simp only [nonneg] at ha hb
      simp only [add_def, add]
      apply round_nonneg
      positivity

theorem nonneg_mul_self (a : Double) (ha : a ≠ nan) : nonneg (a * a) := by
  cases a with
  | nan => exact absurd rfl ha
  | inf x => simp [mul_def, mul, nonneg]
  | finite m e =>
    simp only [mul_def, mul]
    exact round_nonneg _ _ (mul_self_nonneg m)

theorem nonneg_half_mul (a : Double) (ha : nonneg a) : nonneg (0.5 * a) := by
  rw [half_def]
  cases a with
  | nan => exact ha.elim
  | inf x =>
    simp only [nonneg] at ha
    subst ha
    simp [mul_def, mul, nonneg]
  | finite m e =>
    simp only [nonneg] at ha
    simp only [mul_def, mul]
    apply round_nonneg
    positivity

theorem zero_le_of_nonneg (a : Double) (ha : nonneg a) : (0 : Double) ≤ a := by
  cases a with
  | nan => exact ha.elim
  | inf x =>
    simp only [nonneg] at ha
    subst ha
    rfl
  | finite m e =>
    simp only [nonneg] at ha
    show le (finite 0 MIN_EXP) (finite m e) = true
    simp only [le, zero_mul, decide_eq_true_eq]
    positivity

theorem foldl_add_nonneg {J : Type} (f : J → Double) (hf : ∀ j, nonneg (f j)) (l : List J) :
    ∀ acc : Double, nonneg acc → nonneg (l.foldl (fun acc j => acc + f j) acc) := by
  induction l with
  | nil => intro acc h; simpa using h
  | cons a as ih =>
    intro acc h
    simp only [List.foldl_cons]
    exact ih _ (nonneg_add _ _ h (hf a))

theorem foldl_add_zero {J : Type} (f : J → Double) (hf : ∀ j, f j = 0) (l : List J) :
    l.foldl (fun acc j => acc + f j) 0 = 0 := by
  induction l with
  | nil => rfl
  | cons a as ih =>
    simp only [List.foldl_cons, hf a]
    have h0 : (0 : Double) + 0 = 0 := by decide
    rw [h0]
    exact ih

end Double

/-- In `double` arithmetic the value oracle is not negative on finite
arguments: it returns a finite number `≥ 0` or `+∞`. -/
theorem FunctionFunctor_double_nonneg {d : Nat} (params : parameters d Double)
    (x : Point d Double) (hx : ∀ j, (x j).isFinite = true)
    (hx0 : ∀ j, (params.x0 j).isFinite = true) :
    (0 : Double) ≤ FunctionFunctor params x := by
  apply Double.zero_le_of_nonneg
  unfold FunctionFunctor Point.dot
  apply Double.nonneg_half_mul
  apply Double.foldl_add_nonneg
    (fun j => Point.sub x params.x0 j * Point.sub x params.x0 j)
  · intro j
    exact Double.nonneg_mul_self _ (Double.sub_finite_ne_nan _ _ (hx j) (hx0 j))
  · simp [Double.nonneg, Double.zero_def]

/-- In `double` arithmetic the value oracle returns `0` at a finite centre. -/
theorem FunctionFunctor_double_centre {d : Nat} (params : parameters d Double)
    (hx0 : ∀ j, (params.x0 j).isFinite = true) :
    FunctionFunctor params params.x0 = 0 := by
  have hsum : (List.finRange d).foldl (fun acc j =>
      acc + Point.sub params.x0 params.x0 j * Point.sub params.x0 params.x0 j) 0
      = (0 : Double) := by
    apply Double.foldl_add_zero
      (fun j => Point.sub params.x0 params.x0 j * Point.sub params.x0 params.x0 j)
    intro j
    simp only [Point.sub, Double.sub_self_finite _ (hx0 j)]
    decide
  show (0.5 : Double) * (List.finRange d).foldl (fun acc j =>
      acc + Point.sub params.x0 params.x0 j * Point.sub params.x0 params.x0 j) 0 = 0
  rw [hsum]
  decide

/-! ## Oracle lemmas -/

theorem usub_one (n : Nat) (h1 : 1 ≤ n) (h2 : n < UINT_SIZE) : usub n 1 = n - 1 := by
  unfold usub
  unfold UINT_SIZE at *
  omega

theorem uadd_one (i : Nat) (h : i + 1 < UINT_SIZE) : uadd i 1 = i + 1 := by
  unfold uadd
  exact Nat.mod_eq_of_lt h

theorem head_of_length {P : Type} (xs : List P) (h : 1 ≤ xs.length) : ∃ a, xs[0]? = some a := by
  cases xs with
  | nil => simp at h
  | cons a as => exact ⟨a, by simp⟩

/-- At the top state index the gradient oracle returns `(-1) * (xs[0] - x0)`. -/
theorem GradientFunctor_top {d : Nat} {K : Type} [Sub K] [Mul K] [Neg K] [One K]
    (params : parameters d K)
    (xs : List (Point d K)) (t : K) (a : Point d K)
    (h1 : 1 ≤ params.order) (h2 : params.order < UINT_SIZE) (ha : xs[0]? = some a) :
    GradientFunctor params (params.order - 1) xs t
      = some (Point.smul (-1) (Point.sub a params.x0)) := by
  unfold GradientFunctor
  rw [usub_one _ h1 h2, if_pos rfl, ha]
  rfl

/-- Below the top state index the gradient oracle returns `xs[i + 1]`. -/
theorem GradientFunctor_below {d : Nat} {K : Type} [Sub K] [Mul K] [Neg K] [One K]
    (params : parameters d K)
    (xs : List (Point d K)) (t : K) (i : Nat)
    (h1 : 1 ≤ params.order) (h2 : params.order < UINT_SIZE) (hi : i < params.order - 1) :
    GradientFunctor params i xs t = xs[i + 1]? := by
  unfold GradientFunctor
  rw [usub_one _ h1 h2, if_neg (by omega), uadd_one _ (by omega)]

theorem FunctionFunctor_eq_sum {d : Nat} {K : Type} [Field K] [CharZero K]
    (params : parameters d K) (x : Point d K) :
    FunctionFunctor params x = (1 / 2) * ∑ j, (x j - params.x0 j) * (x j - params.x0 j) := by
  simp only [FunctionFunctor, Point.dot_eq_sum, Point.sub, half_eq]

theorem FunctionFunctor_nonneg {d : Nat} {K : Type} [LinearOrderedField K]
    (params : parameters d K) (x : Point d K) : 0 ≤ FunctionFunctor params x := by
  rw [FunctionFunctor_eq_sum]
  exact mul_nonneg (by norm_num) (Finset.sum_nonneg fun j _ => mul_self_nonneg _)

theorem FunctionFunctor_eq_zero_iff {d : Nat} {K : Type} [LinearOrderedField K]
    (params : parameters d K) (x : Point d K) :
    FunctionFunctor params x = 0 ↔ x = params.x0 := by
  rw [FunctionFunctor_eq_sum]
  constructor
  · intro h
    have hsum : ∑ j, (x j - params.x0 j) * (x j - params.x0 j) = 0 := by
      rcases mul_eq_zero.mp h with h | h
      · norm_num at h
      · exact h
    have hall := (Finset.sum_eq_zero_iff_of_nonneg
      (fun j _ => mul_self_nonneg (x j - params.x0 j))).mp hsum
    funext j
    have hj := hall j (Finset.mem_univ j)
    exact sub_eq_zero.mp (mul_self_eq_zero.mp hj)
  · intro h
    subst h
    simp

/-- C6: what the code computes where the source comment says `c^T x`.  With the
centre `0` in dimension one the value oracle returns `0.5` at `x = 1` and `2` at
`x = 2`, in `double` and in exact arithmetic alike, and no vector `c` gives
`FunctionFunctor x = c · x` for every `x`: a linear function that is `0.5` at `1`
is `1` at `2`. -/
theorem FunctionFunctor_not_linear_example :
    FunctionFunctor (parameters.ctor (![0] : Point 1 Double)) ![1] = 0.5
    ∧ FunctionFunctor (parameters.ctor (![0] : Point 1 Double)) ![2.0] = 2.0
    ∧ FunctionFunctor (parameters.ctor (![0] : Point 1 ℚ)) ![1] = 1 / 2
    ∧ FunctionFunctor (parameters.ctor (![0] : Point 1 ℚ)) ![2] = 2
    ∧ ¬ ∃ c : Point 1 ℚ, ∀ x,
        FunctionFunctor (parameters.ctor (![0] : Point 1 ℚ)) x = Point.dot c x := by
  have hev : ∀ x : Point 1 ℚ,
      FunctionFunctor (parameters.ctor (![0] : Point 1 ℚ)) x = 1 / 2 * (x 0 * x 0) := by
    intro x
    rw [FunctionFunctor_eq_sum]
    simp [parameters.ctor]
  have hdot : ∀ c x : Point 1 ℚ, Point.dot c x = c 0 * x 0 := by
    intro c x
    rw [Point.dot_eq_sum]
    simp
  refine ⟨by decide!, by decide!, ?_, ?_, ?_⟩
  · rw [hev]
    norm_num
  · rw [hev]
    norm_num
  · rintro ⟨c, hc⟩
    have h1 := hc ![1]
    have h2 := hc ![2]
    rw [hev, hdot] at h1 h2
    norm_num at h1 h2
    linarith

/-- C7, as stated, fails: in `double` arithmetic, with the centre `0` in
dimension one, the value oracle returns `0` at `x = 1e-200`, which is not the
centre (the square `1e-400` underflows); it is not zero exactly at `x = x0`. -/
theorem FunctionFunctor_zero_off_centre_example :
    (1e-200 : Double).canonical = true
    ∧ FunctionFunctor (parameters.ctor (![0] : Point 1 Double)) ![1e-200] = 0
    ∧ (![1e-200] : Point 1 Double) ≠ (parameters.ctor (![0] : Point 1 Double)).x0
    ∧ ¬ (FunctionFunctor (parameters.ctor (![0] : Point 1 Double)) ![1e-200] = 0
          ↔ (![1e-200] : Point 1 Double) = (parameters.ctor (![0] : Point 1 Double)).x0) := by
  have hval : FunctionFunctor (parameters.ctor (![0] : Point 1 Double)) ![1e-200] = 0 := by
    decide!
  have hne : (![1e-200] : Point 1 Double) ≠ (parameters.ctor (![0] : Point 1 Double)).x0 := by
    intro h
    have h0 := congrFun h 0
    revert h0
    decide!
  exact ⟨by decide!, hval, hne, fun h => hne (h.mp hval)⟩

/-- C7, amended: for every state list `xs` of length `order` and every time `t`,
the gradient oracle at index `order - 1` returns `(-1.0) * (xs[0] - x0)`.  In
exact arithmetic that is `-(xs[0] - x0)`, and `xs[0] - x0` is the gradient at
`xs[0]` of the value oracle `0.5 * (x - x0) · (x - x0)`, which is non-negative
everywhere and zero exactly at `x = x0`.  In `double` arithmetic the value
oracle is non-negative at every finite `x` (for a finite centre) and is zero at
`x = x0`. -/
theorem NegativeGradientFunctor_neg_gradient {d : Nat} (params : parameters d ℝ)
    (xs : List (Point d ℝ)) (t : ℝ) (h1 : 1 ≤ params.order)
    (h2 : params.order < UINT_SIZE) (hlen : xs.length = params.order) :
    (∃ a, xs[0]? = some a
      ∧ GradientFunctor params (params.order - 1) xs t
          = some (fun j => -(a j - params.x0 j))
      ∧ IsGradientAt (FunctionFunctor params) (fun j => a j - params.x0 j) a)
    ∧ (∀ x, FunctionFunctor params x
        = (1 / 2) * Point.dot (Point.sub x params.x0) (Point.sub x params.x0))
    ∧ (∀ x, 0 ≤ FunctionFunctor params x)
    ∧ (∀ x, FunctionFunctor params x = 0 ↔ x = params.x0)
    ∧ (∀ (p : parameters d Double) (ys : List (Point d Double)) (s : Double),
        1 ≤ p.order → p.order < UINT_SIZE → ys.length = p.order →
        ∃ a, ys[0]? = some a
          ∧ GradientFunctor p (p.order - 1) ys s = some (Point.smul (-1) (Point.sub a p.x0)))
    ∧ (∀ (p : parameters d Double) (x : Point d Double),
        (∀ j, (x j).isFinite = true) → (∀ j, (p.x0 j).isFinite = true) →
        (0 : Double) ≤ FunctionFunctor p x)
    ∧ (∀ p : parameters d Double, (∀ j, (p.x0 j).isFinite = true) →
        FunctionFunctor p p.x0 = 0) := by
  obtain ⟨a, ha⟩ := head_of_length xs (by omega)
  refine ⟨⟨a, ha, ?_, FunctionFunctor_isGradientAt params a⟩, ?_,
    FunctionFunctor_nonneg params, FunctionFunctor_eq_zero_iff params, ?_,
    FunctionFunctor_double_nonneg, FunctionFunctor_double_centre⟩
  · rw [GradientFunctor_top params xs t a h1 h2 ha]
    congr 1
    funext j
    simp [Point.smul, Point.sub]
  · intro x
    simp only [FunctionFunctor, half_eq]
  · intro p ys s hp1 hp2 hys
    obtain ⟨b, hb⟩ := head_of_length ys (by omega)
    exact ⟨b, hb, GradientFunctor_top p ys s b hp1 hp2 hb⟩

/-- C7, amended, on the parameters the example builds, centre `(0, 0)`, and the
state `[(1, 2), (3, 4)]`. -/
theorem NegativeGradientFunctor_neg_gradient_example :
    ∃ a, ([![1, 2], ![3, 4]] : List (Point 2 ℝ))[0]? = some a
      ∧ GradientFunctor (parameters.ctor (![0, 0] : Point 2 ℝ))
          ((parameters.ctor (![0, 0] : Point 2 ℝ)).order - 1) [![1, 2], ![3, 4]] 0
          = some (fun j => -(a j - (parameters.ctor (![0, 0] : Point 2 ℝ)).x0 j))
      ∧ IsGradientAt (FunctionFunctor (parameters.ctor (![0, 0] : Point 2 ℝ)))
          (fun j => a j - (parameters.ctor (![0, 0] : Point 2 ℝ)).x0 j) a :=
  (NegativeGradientFunctor_neg_gradient (parameters.ctor (![0, 0] : Point 2 ℝ))
    [![1, 2], ![3, 4]] 0 (by decide) (by norm_num [parameters.ctor, UINT_SIZE]) rfl).1

/-- C9: for every `order ≥ 1`, every state list `xs` of length `order` and every
state index `i < order`, the call operator of `GradientFunctor` reads only
in-bounds elements of `xs` and returns a point: for `i < order - 1` it returns
`xs[i + 1]`, and `i + 1` is in bounds; for `i = order - 1` it returns
`(-1) * (xs[0] - x0)` and depends on no other element of `xs`; the result never
depends on the time `t`. -/
theorem GradientFunctor_reads_in_bounds {d : Nat} {K : Type} [Sub K] [Mul K] [Neg K] [One K]
    (params : parameters d K) (xs : List (Point d K)) (i : Nat) (t : K)
    (h1 : 1 ≤ params.order) (h2 : params.order < UINT_SIZE)
    (hlen : xs.length = params.order) (hi : i < params.order) :
    (∃ y, GradientFunctor params i xs t = some y)
    ∧ (i < params.order - 1 →
        i + 1 < xs.length ∧ GradientFunctor params i xs t = xs[i + 1]?)
    ∧ (i = params.order - 1 →
        ∃ a, xs[0]? = some a
          ∧ GradientFunctor params i xs t = some (Point.smul (-1) (Point.sub a params.x0))
          ∧ ∀ ys : List (Point d K), ys[0]? = some a →
              GradientFunctor params i ys t = GradientFunctor params i xs t)
    ∧ (∀ s : K, GradientFunctor params i xs s = GradientFunctor params i xs t) := by
  have htop : i = params.order - 1 →
      ∃ a, xs[0]? = some a
        ∧ GradientFunctor params i xs t = some (Point.smul (-1) (Point.sub a params.x0))
        ∧ ∀ ys : List (Point d K), ys[0]? = some a →
            GradientFunctor params i ys t = GradientFunctor params i xs t := by
    intro hi2
    subst hi2
    obtain ⟨a, ha⟩ := head_of_length xs (by omega)
    refine ⟨a, ha, GradientFunctor_top params xs t a h1 h2 ha, ?_⟩
    intro ys hys
    rw [GradientFunctor_top params xs t a h1 h2 ha, GradientFunctor_top params ys t a h1 h2 hys]
  have hbelow : i < params.order - 1 →
      i + 1 < xs.length ∧ GradientFunctor params i xs t = xs[i + 1]? := fun hi2 =>
    ⟨by omega, GradientFunctor_below params xs t i h1 h2 hi2⟩
  refine ⟨?_, hbelow, htop, fun _ => rfl⟩
  by_cases hc : i = params.order - 1
  · obtain ⟨a, -, hg, -⟩ := htop hc
    exact ⟨_, hg⟩
  · obtain ⟨hb, hg⟩ := hbelow (by omega)
    exact ⟨xs.get ⟨i + 1, hb⟩, by rw [hg]; simp⟩

/-- C9 on the example's parameters (`order = 2`), the state `[(1, 2), (3, 4)]` and
the index `0`: the oracle returns `xs[1] = (3, 4)`. -/
theorem GradientFunctor_reads_in_bounds_example :
    GradientFunctor (parameters.ctor (![0, 0] : Point 2 ℚ)) 0 [![1, 2], ![3, 4]] 7
      = some ![3, 4] :=
  ((GradientFunctor_reads_in_bounds (parameters.ctor (![0, 0] : Point 2 ℚ))
    [![1, 2], ![3, 4]] 0 7 (by decide) (by norm_num [parameters.ctor, UINT_SIZE]) rfl
    (by decide)).2.1 (by decide)).2

end Volesti
